import Mathlib

/-!
Verification of the replicated metadata-store specification against the
repository sources.

The development has two kinds of definitions:

* Shallow embeddings of functions that are present in the repository
  sources (`export_set` and the surrounding `ExportSetFunction::eval`
  error path from `src/common/functions/src/scalars/strings/export_set.rs`,
  and the salt construction of `InteractiveWorker::create` from
  `src/query/src/servers/mysql/mysql_interactive_worker.rs`).  Machine
  integers are modelled as `Nat` (the relevant code never overflows:
  offsets and lengths only grow, and the salt bytes incremented are 0 and
  36); byte strings are `List Nat`.

* Models of the consensus core and the replicated state machine.  The
  corresponding Rust sources are not part of the source tree here (only a
  test harness for the store is), so these are modelled from the
  specification text, as marked in the doc comments.
-/

/-! ## Model of `export_set` (source: export_set.rs, lines 141-172) -/

namespace ExportSet

/-- Write `src` into `buffer` starting at `offset`: model of
`buffer[offset..offset + src.len()].copy_from_slice(src)`. -/
def writeSlice (buffer : List Nat) (offset : Nat) (src : List Nat) : List Nat :=
  buffer.take offset ++ src ++ buffer.drop (offset + src.length)

/-- The byte string written for bit `i`: `off` when `(bits >> i) & 1 == 0`,
`on` otherwise (source lines 161-169). -/
def bitPiece (bits : Nat) (onv offv : List Nat) (i : Nat) : List Nat :=
  if bits >>> i &&& 1 = 0 then offv else onv

/-- The `export_set` loop starting at iteration `i` with `k` iterations
remaining, carrying the running `offset` and the output buffer.  Each
iteration first writes `sep` (except at iteration 0), then the on/off piece
for the current bit (source lines 154-170). -/
def exportSetFrom (bits : Nat) (onv offv sep : List Nat) :
    Nat → Nat → Nat → List Nat → Nat × List Nat
  | _, 0, offset, buffer => (offset, buffer)
  | i, k+1, offset, buffer =>
    let offset1 := if i ≠ 0 then offset + sep.length else offset
    let buffer1 := if i ≠ 0 then writeSlice buffer offset sep else buffer
    let piece := bitPiece bits onv offv i
    exportSetFrom bits onv offv sep (i+1) k (offset1 + piece.length)
      (writeSlice buffer1 offset1 piece)

/-- Model of `fn export_set(bits, on, off, sep, n, buffer) -> usize`; the
result is the returned byte count paired with the final buffer contents. -/
def export_set (bits : Nat) (onv offv sep : List Nat) (n : Nat)
    (buffer : List Nat) : Nat × List Nat :=
  exportSetFrom bits onv offv sep 0 n 0 buffer

/-- Claim-side description of one element: `on` when bit `i` of `bits` is 1,
`off` when it is 0. -/
def claimPiece (bits : Nat) (onv offv : List Nat) (i : Nat) : List Nat :=
  if bits / 2 ^ i % 2 = 1 then onv else offv

/-- Claim-side description of the output: the concatenation over
`i = 0, …, n-1` of the on/off piece for bit `i`, with `sep` inserted before
every element except the first. -/
def claimConcat (bits : Nat) (onv offv sep : List Nat) (n : Nat) : List Nat :=
  ((List.range n).map fun i =>
    (if i = 0 then [] else sep) ++ claimPiece bits onv offv i).flatten

/-- Claim-side byte count: `(n-1)*|sep|` (0 when `n = 0`) plus the sum over
`i < n` of `|on|` or `|off|` according to bit `i`. -/
def claimLen (bits : Nat) (onv offv sep : List Nat) (n : Nat) : Nat :=
  (n - 1) * sep.length +
    ((List.range n).map fun i => (claimPiece bits onv offv i).length).sum

/-- The bytes written by iterations `i, …, i+k-1` of the loop: each
iteration contributes its separator (absent at iteration 0) followed by its
on/off piece. -/
def segs (bits : Nat) (onv offv sep : List Nat) : Nat → Nat → List Nat
  | _, 0 => []
  | i, k+1 =>
    ((if i = 0 then [] else sep) ++ bitPiece bits onv offv i) ++
      segs bits onv offv sep (i+1) k

end ExportSet

/-! ## Model of the `ExportSetFunction::eval` error path
(source: export_set.rs, lines 71-108) -/

namespace ExportSetEval

/-- A column as far as the `eval` guard is concerned: only its constness
matters for the BadArguments check. -/
structure Column where
  isConst : Bool
deriving DecidableEq

/-- Outcome of the modelled `eval` prologue. -/
inductive EvalOutcome
  | ok
  | badArguments
deriving DecidableEq

/-- `ConstColumn::new(...)`: a constant column (used for the defaulted
separator and number-of-bits arguments, source lines 72-82). -/
def constColumn : Column := Column.mk true

/-- `cast_with_type` to u64.  The cast itself is outside the source tree;
casting a column to a numeric type preserves whether it is a constant
column, which is the only attribute this model tracks. -/
def castWithType (c : Column) : Column := c

/-- The number-of-bits column chosen by `eval`: argument 4 when five or more
arguments are given, otherwise a constant column holding 64. -/
def numberBitsColumn (cols : List Column) : Column :=
  if 5 ≤ cols.length then cols.getD 4 constColumn else constColumn

/-- The guard of `ExportSetFunction::eval` (source lines 99-103): when
`input_rows != 1` and the (cast) bits column or number-of-bits column is
constant, the function returns `ErrorCode::BadArguments`. -/
def evalExportSet (cols : List Column) (inputRows : Nat) : EvalOutcome :=
  let numberBitsCast := castWithType (numberBitsColumn cols)
  let bitsCast := castWithType (cols.getD 0 constColumn)
  if inputRows ≠ 1 ∧ (numberBitsCast.isConst = true ∨ bitsCast.isConst = true)
  then EvalOutcome.badArguments
  else EvalOutcome.ok

end ExportSetEval

/-! ## Model of the salt construction of `InteractiveWorker::create`
(source: mysql_interactive_worker.rs, lines 285-310) -/

namespace MySqlSalt

/-- The scramble loop: copy each RNG byte, and when it equals `0` or `b'$'`
(36), add one (source lines 291-297). -/
def createSalt (bs : List Nat) : List Nat :=
  bs.map fun b => if b = 0 ∨ b = 36 then b + 1 else b

end MySqlSalt

/-! ## Model of the replicated state machine (spec §3, §4.3, §4.4) -/

namespace MetaStore

/-- Modelled from the spec: "StateMachine KV entry: {key: bytes, value:
bytes, version: u64} — version increments on every write to that key".
The state-machine sources are not under the source tree. -/
structure SMEntry where
  key : List Nat
  value : List Nat
  version : Nat
deriving DecidableEq

/-- Modelled from the spec: the deterministic key-value store owned by the
Raft core, as a list of KV entries (at most one per key by construction). -/
abbrev StateMachine : Type := List SMEntry

/-- Look up the entry bound to `k`. -/
def smLookup (sm : StateMachine) (k : List Nat) : Option SMEntry :=
  List.find? (fun e => e.key == k) sm

/-- Modelled from the spec: `get(key) -> Option<value>` — the read-only
client-facing lookup. -/
def get (sm : StateMachine) (k : List Nat) : Option (List Nat) :=
  (smLookup sm k).map SMEntry.value

/-- The key's current version; a key that was never written has version 0
(the first write creates it at version 1). -/
def currentVersion (sm : StateMachine) (k : List Nat) : Nat :=
  ((smLookup sm k).map SMEntry.version).getD 0

/-- Replace the binding of `k` (keeping its position) or append a fresh
binding. -/
def setEntry : StateMachine → List Nat → List Nat → Nat → StateMachine
  | [], k, v, ver => [SMEntry.mk k v ver]
  | e :: rest, k, v, ver =>
    if e.key = k then SMEntry.mk k v ver :: rest
    else e :: setEntry rest k v ver

/-- Modelled from the spec: `set(key, value) -> version`; the version
increments on every write to that key. -/
def set (sm : StateMachine) (k v : List Nat) : StateMachine × Nat :=
  let newVer := currentVersion sm k + 1
  (setEntry sm k v newVer, newVer)

/-- Result of a compare-and-swap. -/
inductive CasResult
  | ok (version : Nat)
  | versionConflict
deriving DecidableEq

/-- Modelled from the spec: `compare_and_swap(key, expected_version,
new_value)` fails with `VersionConflict` if the current version differs;
otherwise it writes through `set`. -/
def compare_and_swap (sm : StateMachine) (k : List Nat) (expected : Nat)
    (v : List Nat) : StateMachine × CasResult :=
  if currentVersion sm k = expected then
    let r := set sm k v
    (r.1, CasResult.ok r.2)
  else (sm, CasResult.versionConflict)

/-- Modelled from the spec: client write operations proposed through the
log-and-apply path. -/
inductive ClientOp
  | setOp (k v : List Nat)
  | casOp (k : List Nat) (expected : Nat) (v : List Nat)
deriving DecidableEq

/-- Apply one committed client operation to the state machine. -/
def applyOp (sm : StateMachine) : ClientOp → StateMachine
  | ClientOp.setOp k v => (set sm k v).1
  | ClientOp.casOp k e v => (compare_and_swap sm k e v).1

/-- Apply a sequence of committed operations in order, starting from `sm`. -/
def applyOps (sm : StateMachine) (ops : List ClientOp) : StateMachine :=
  ops.foldl applyOp sm

/-- The empty state machine of a fresh node. -/
def initSM : StateMachine := []

/-- An operation that can write key `k`: a `set` on `k`, or a
compare-and-swap on `k` with expected version 0 (which succeeds on a
never-written key, whose current version is 0, and creates it). -/
def canWriteKey (k : List Nat) : ClientOp → Prop
  | ClientOp.setOp k' _ => k' = k
  | ClientOp.casOp k' e _ => k' = k ∧ e = 0

instance (k : List Nat) (op : ClientOp) : Decidable (canWriteKey k op) := by
  cases op <;> simp [canWriteKey] <;> infer_instance

/-- Serialization of one KV entry: length-prefixed key and value, then the
version. -/
def encodeEntry (e : SMEntry) : List Nat :=
  e.key.length :: (e.key ++ e.value.length :: (e.value ++ [e.version]))

/-- Modelled from the spec: the Snapshot Manager "serializes the state
machine image" — an entry count followed by the encoded entries. -/
def serialize (sm : StateMachine) : List Nat :=
  sm.length :: (sm.map encodeEntry).flatten

/-- Decode one KV entry, returning it and the remaining bytes. -/
def decodeEntry : List Nat → Option (SMEntry × List Nat)
  | [] => none
  | kl :: r =>
    let key := r.take kl
    match r.drop kl with
    | [] => none
    | vl :: r2 =>
      let value := r2.take vl
      match r2.drop vl with
      | [] => none
      | ver :: r3 => some (SMEntry.mk key value ver, r3)

/-- Decode `n` consecutive KV entries. -/
def decodeEntries : Nat → List Nat → Option (List SMEntry × List Nat)
  | 0, r => some ([], r)
  | n+1, r => do
    let (e, r1) ← decodeEntry r
    let (es, r2) ← decodeEntries n r1
    pure (e :: es, r2)

/-- Deserialize a full state-machine image; the whole image must be
consumed. -/
def deserialize (bytes : List Nat) : Option StateMachine :=
  match bytes with
  | [] => none
  | n :: r => do
    let (es, rest) ← decodeEntries n r
    if rest = [] then pure es else none

/-- Modelled from the spec: "Snapshot: {last_included_index,
last_included_term, membership_at_snapshot, state_machine_image}". -/
structure Snapshot where
  lastIncludedIndex : Nat
  lastIncludedTerm : Nat
  membership : List Nat
  image : List Nat
deriving DecidableEq

/-- Modelled from the spec: the Snapshot Manager serializes the state
machine plus the last-applied index/term and current membership. -/
def makeSnapshot (sm : StateMachine) (idx term : Nat) (memb : List Nat) :
    Snapshot :=
  Snapshot.mk idx term memb (serialize sm)

/-- The state-machine-relevant state of a node. -/
structure NodeImage where
  sm : StateMachine
  lastApplied : Nat
deriving DecidableEq

/-- A fresh node: empty state machine, nothing applied. -/
def freshNode : NodeImage := NodeImage.mk initSM 0

/-- Modelled from the spec: installing a snapshot, the follower "discards
its entire log and state machine and loads the snapshot image wholesale". -/
def installSnapshot (snap : Snapshot) (_node : NodeImage) : Option NodeImage :=
  (deserialize snap.image).map fun sm => NodeImage.mk sm snap.lastIncludedIndex

end MetaStore

/-! ## Model of the Raft core (spec §3, §4.1, §8) -/

namespace Raft

/-- Modelled from the spec: log-entry payload, a "tagged variant (sum type)
over {no-op, membership-change, client write}". -/
inductive Payload
  | noop
  | membership (config : List Nat)
  | write (key value : List Nat)
deriving DecidableEq

/-- Modelled from the spec: a log entry carries the term of the leader that
created it (the index is the position in the log, 1-based). -/
structure Entry where
  term : Nat
  payload : Payload
deriving DecidableEq

/-- Modelled from the spec: the per-node role.  Learners never vote and
never become candidates; they are omitted (they behave as followers for
everything modelled here). -/
inductive Role
  | follower
  | candidate
  | leader
deriving DecidableEq

/-- Modelled from the spec: per-node Raft state — role, `current_term`,
`voted_for` and the local log.  The Raft-core sources are not under the
source tree. -/
structure RNode (N : Nat) where
  role : Role
  currentTerm : Nat
  votedFor : Option (Fin N)
  log : List Entry

/-- Modelled from the spec: the global state of an `N`-node cluster, with
two append-only ghost histories recording granted votes and leadership
acquisitions (abstracting the RequestVote traffic), and a ghost map giving,
for each term, the log of that term's leader as of its latest append. -/
structure World (N : Nat) where
  nodes : Fin N → RNode N
  votes : List (Nat × Fin N × Fin N)
  elected : List (Nat × Fin N)
  termLogs : Nat → List Entry

/-- Initial per-node state: Follower with `current_term = 0`, no vote, empty
log. -/
def initNode (N : Nat) : RNode N := RNode.mk Role.follower 0 none []

/-- Initial cluster state. -/
def initWorld (N : Nat) : World N :=
  World.mk (fun _ => initNode N) [] [] (fun _ => [])

/-- A quorum: a set of voters forming a strict majority of the `N` nodes. -/
def isQuorum (N : Nat) (Q : Finset (Fin N)) : Prop := N < 2 * Q.card

instance (N : Nat) (Q : Finset (Fin N)) : Decidable (isQuorum N Q) := by
  unfold isQuorum; infer_instance

/-- Term of the last log entry (0 for the empty log). -/
def lastTerm (log : List Entry) : Nat :=
  (log.getLast?.map Entry.term).getD 0

/-- Modelled from the spec: the log-completeness check for granting a vote —
"the requester's last log (index, term) is at least as up to date as the
receiver's (compare term first, then index)". -/
def upToDate (cand voter : List Entry) : Prop :=
  lastTerm voter < lastTerm cand ∨
    (lastTerm cand = lastTerm voter ∧ voter.length ≤ cand.length)

/-- The term of the entry at 1-based index `i` (0 when `i = 0` or out of
range); used for `prev_log_term`. -/
def entryTermAt (log : List Entry) (i : Nat) : Nat :=
  ((log.get? (i-1)).map Entry.term).getD 0

/-- Modelled from the spec: the follower side of AppendEntries — "a follower
accepts the batch iff its log at `prev_log_index` matches `prev_log_term`
…; on acceptance, any conflicting suffix already present is truncated and
replaced by the leader's entries". -/
def handleAppendEntries (log : List Entry) (prevIndex prevTerm : Nat)
    (entries : List Entry) : Option (List Entry) :=
  if prevIndex ≤ log.length ∧
      (prevIndex = 0 ∨ (log.get? (prevIndex - 1)).map Entry.term = some prevTerm)
  then some (log.take prevIndex ++ entries)
  else none

/-- Modelled from the spec (§4.1): one protocol step of the cluster.
`timeout` makes a non-leader a candidate in the next term, voting for
itself; `grantVote` is the receiver side of RequestVote; `becomeLeader`
requires vote grants from a majority; `clientPropose` appends to the
leader's log; `appendEntries` delivers a batch of the leader's entries to a
follower; `stepDown` is a node discovering a higher term; `restart` reloads
the persisted state (term, vote, log) and resumes as Follower. -/
inductive Step {N : Nat} : World N → World N → Prop
  | timeout (n : Fin N) (w : World N)
      (hrole : (w.nodes n).role ≠ Role.leader) :
      Step w (World.mk
        (Function.update w.nodes n
          (RNode.mk Role.candidate ((w.nodes n).currentTerm + 1) (some n)
            (w.nodes n).log))
        (((w.nodes n).currentTerm + 1, n, n) :: w.votes)
        w.elected w.termLogs)
  | grantVote (v c : Fin N) (w : World N)
      (hc : (w.nodes c).role = Role.candidate)
      (hterm : (w.nodes v).currentTerm ≤ (w.nodes c).currentTerm)
      (hvote : (w.nodes v).currentTerm < (w.nodes c).currentTerm ∨
        (w.nodes v).votedFor = none ∨ (w.nodes v).votedFor = some c)
      (hlog : upToDate (w.nodes c).log (w.nodes v).log) :
      Step w (World.mk
        (Function.update w.nodes v
          (RNode.mk Role.follower (w.nodes c).currentTerm (some c)
            (w.nodes v).log))
        (((w.nodes c).currentTerm, v, c) :: w.votes)
        w.elected w.termLogs)
  | becomeLeader (c : Fin N) (Q : Finset (Fin N)) (w : World N)
      (hc : (w.nodes c).role = Role.candidate)
      (hq : isQuorum N Q)
      (hvotes : ∀ v ∈ Q, ((w.nodes c).currentTerm, v, c) ∈ w.votes) :
      Step w (World.mk
        (Function.update w.nodes c
          (RNode.mk Role.leader (w.nodes c).currentTerm (w.nodes c).votedFor
            (w.nodes c).log))
        w.votes (((w.nodes c).currentTerm, c) :: w.elected) w.termLogs)
  | clientPropose (n : Fin N) (p : Payload) (w : World N)
      (hl : (w.nodes n).role = Role.leader) :
      Step w (World.mk
        (Function.update w.nodes n
          (RNode.mk Role.leader (w.nodes n).currentTerm (w.nodes n).votedFor
            ((w.nodes n).log ++ [Entry.mk (w.nodes n).currentTerm p])))
        w.votes w.elected
        (Function.update w.termLogs (w.nodes n).currentTerm
          ((w.nodes n).log ++ [Entry.mk (w.nodes n).currentTerm p])))
  | appendEntries (l f : Fin N) (p k : Nat) (newLog : List Entry) (w : World N)
      (hl : (w.nodes l).role = Role.leader)
      (hne : l ≠ f)
      (hterm : (w.nodes f).currentTerm ≤ (w.nodes l).currentTerm)
      (hp : p ≤ (w.nodes l).log.length)
      (hk : p + k ≤ (w.nodes l).log.length)
      (haccept : handleAppendEntries (w.nodes f).log p
        (entryTermAt (w.nodes l).log p)
        (((w.nodes l).log.drop p).take k) = some newLog) :
      Step w (World.mk
        (Function.update w.nodes f
          (RNode.mk Role.follower (w.nodes l).currentTerm
            (if (w.nodes f).currentTerm = (w.nodes l).currentTerm
             then (w.nodes f).votedFor else none)
            newLog))
        w.votes w.elected w.termLogs)
  | stepDown (n : Fin N) (t : Nat) (w : World N)
      (ht : (w.nodes n).currentTerm < t) :
      Step w (World.mk
        (Function.update w.nodes n
          (RNode.mk Role.follower t none (w.nodes n).log))
        w.votes w.elected w.termLogs)
  | restart (n : Fin N) (w : World N) :
      Step w (World.mk
        (Function.update w.nodes n
          (RNode.mk Role.follower (w.nodes n).currentTerm
            (w.nodes n).votedFor (w.nodes n).log))
        w.votes w.elected w.termLogs)

/-- The reachable cluster states: everything obtainable from the initial
state by protocol steps. -/
inductive Reachable {N : Nat} : World N → Prop
  | init : Reachable (initWorld N)
  | step {w w' : World N} : Reachable w → Step w w' → Reachable w'

/-- The inductive invariant of the protocol model. -/
structure Inv {N : Nat} (w : World N) : Prop where
  votes_le_term : ∀ T v c, (T, v, c) ∈ w.votes → T ≤ (w.nodes v).currentTerm
  votes_unique : ∀ T v c c', (T, v, c) ∈ w.votes → (T, v, c') ∈ w.votes →
    c = c'
  votes_current : ∀ v c, ((w.nodes v).currentTerm, v, c) ∈ w.votes →
    (w.nodes v).votedFor = some c
  elected_quorum : ∀ T c, (T, c) ∈ w.elected →
    ∃ Q, isQuorum N Q ∧ ∀ v ∈ Q, (T, v, c) ∈ w.votes
  elected_le_term : ∀ T c, (T, c) ∈ w.elected → T ≤ (w.nodes c).currentTerm
  elected_not_candidate : ∀ T c, (T, c) ∈ w.elected →
    ¬((w.nodes c).role = Role.candidate ∧ (w.nodes c).currentTerm = T)
  leader_elected : ∀ n, (w.nodes n).role = Role.leader →
    ((w.nodes n).currentTerm, n) ∈ w.elected
  termLogs_elected : ∀ T, w.termLogs T ≠ [] → ∃ c, (T, c) ∈ w.elected
  leader_termLogs : ∀ n, (w.nodes n).role = Role.leader →
    ∃ t, w.termLogs (w.nodes n).currentTerm ++ t = (w.nodes n).log
  log_matches : ∀ n i e, (w.nodes n).log.get? i = some e →
    (w.nodes n).log.take (i+1) = (w.termLogs e.term).take (i+1)

/-- A concrete 1-node cluster state: node 0 after a timeout. -/
def wTimeout : World 1 :=
  World.mk
    (Function.update (initWorld 1).nodes 0
      (RNode.mk Role.candidate 1 (some 0) []))
    [(1, 0, 0)] [] (fun _ => [])

/-- The same cluster after node 0 wins the (single-vote) election. -/
def wLeader : World 1 :=
  World.mk
    (Function.update wTimeout.nodes 0 (RNode.mk Role.leader 1 (some 0) []))
    [(1, 0, 0)] [(1, 0)] (fun _ => [])

/-- The same cluster after the leader proposes one no-op entry. -/
def wLog : World 1 :=
  World.mk
    (Function.update wLeader.nodes 0
      (RNode.mk Role.leader 1 (some 0) [Entry.mk 1 Payload.noop]))
    [(1, 0, 0)] [(1, 0)]
    (Function.update wLeader.termLogs 1 [Entry.mk 1 Payload.noop])

end Raft

/-! ## Theorems -/

namespace MySqlSalt

/-- C10: for every 20-byte RNG sequence of bytes, the salt built by
`InteractiveWorker::create` has exactly 20 bytes, contains no byte equal to
0x00 and none equal to 0x24, and any such RNG byte is replaced by the next
byte value (all other bytes are copied unchanged). -/
theorem salt_spec (bs : List Nat) (hlen : bs.length = 20)
    (hbyte : ∀ b ∈ bs, b < 256) :
    (createSalt bs).length = 20 ∧
    (∀ b ∈ createSalt bs, b ≠ 0 ∧ b ≠ 36) ∧
    (∀ (i b : Nat), bs[i]? = some b →
      (createSalt bs)[i]? = some (if b = 0 ∨ b = 36 then b + 1 else b)) := by
  refine ⟨by simp [createSalt, hlen], ?_, ?_⟩
  · intro b hb
    simp only [createSalt, List.mem_map] at hb
    obtain ⟨a, ha, rfl⟩ := hb
    have := hbyte a ha
    by_cases h : a = 0 ∨ a = 36 <;> simp [h] <;> omega
  · intro i b hib
    simp [createSalt, List.getElem?_map, hib]

/-- Witness for C10 at a concrete 20-byte RNG output containing both
forbidden bytes. -/
theorem salt_spec_witness :
    (createSalt (List.replicate 18 7 ++ [0, 36])).length = 20 ∧
    (∀ b ∈ createSalt (List.replicate 18 7 ++ [0, 36]), b ≠ 0 ∧ b ≠ 36) ∧
    (∀ (i b : Nat), (List.replicate 18 7 ++ [0, 36])[i]? = some b →
      (createSalt (List.replicate 18 7 ++ [0, 36]))[i]? =
        some (if b = 0 ∨ b = 36 then b + 1 else b)) :=
  salt_spec (List.replicate 18 7 ++ [0, 36]) (by decide) (by decide)

end MySqlSalt

namespace ExportSetEval

/-- C9: `ExportSetFunction::eval` returns a BadArguments error whenever
`input_rows` is not 1 and the (cast) bits column or number-of-bits column is
constant; in particular every three- or four-argument invocation (where the
number-of-bits column defaults to a constant column) with more than one
input row fails with BadArguments. -/
theorem eval_badArguments (cols : List Column) (rows : Nat) (hrows : rows ≠ 1) :
    ((castWithType (cols.getD 0 constColumn)).isConst = true ∨
        (castWithType (numberBitsColumn cols)).isConst = true →
      evalExportSet cols rows = EvalOutcome.badArguments) ∧
    (cols.length ≤ 4 → evalExportSet cols rows = EvalOutcome.badArguments) := by
  constructor
  · intro h
    simp only [evalExportSet]
    split
    · rfl
    · next hn => exact absurd ⟨hrows, h.symm⟩ hn
  · intro h4
    have h5 : ¬ 5 ≤ cols.length := by omega
    have hnb : numberBitsColumn cols = constColumn := by
      simp [numberBitsColumn, h5]
    simp only [evalExportSet]
    split
    · rfl
    · next hn =>
      exact absurd ⟨hrows, Or.inl (by simp [hnb, castWithType, constColumn])⟩ hn

/-- Witness for C9: a 3-argument call with 2 rows, and a 5-argument call
with a constant bits column and 2 rows, both fail. -/
theorem eval_badArguments_witness :
    evalExportSet [Column.mk false, Column.mk false, Column.mk false] 2 =
      EvalOutcome.badArguments ∧
    evalExportSet [Column.mk true, Column.mk false, Column.mk false,
      Column.mk false, Column.mk false] 2 = EvalOutcome.badArguments :=
  ⟨(eval_badArguments [Column.mk false, Column.mk false, Column.mk false] 2
      (by decide)).2 (by decide),
   (eval_badArguments [Column.mk true, Column.mk false, Column.mk false,
      Column.mk false, Column.mk false] 2 (by decide)).1 (Or.inl (by decide))⟩

end ExportSetEval

namespace Raft

/-- C6: AppendEntries application is idempotent — a batch the follower
accepts, re-applied unchanged to the resulting log, is accepted again and
yields exactly the same log, with no additional mutation. -/
theorem append_entries_idempotent (log : List Entry) (p pt : Nat)
    (es log' : List Entry)
    (h : handleAppendEntries log p pt es = some log') :
    handleAppendEntries log' p pt es = some log' := by
  unfold handleAppendEntries at h ⊢
  by_cases hc : p ≤ log.length ∧
      (p = 0 ∨ (log.get? (p-1)).map Entry.term = some pt)
  · rw [if_pos hc] at h
    obtain ⟨hp, hprev⟩ := hc
    have hlog' : log' = log.take p ++ es := (Option.some_inj.mp h).symm
    have htp : (log.take p).length = p := List.length_take_of_le hp
    have htake : log'.take p = log.take p := by
      rw [hlog', List.take_append_of_le_length (le_of_eq htp.symm),
        List.take_take]
      simp
    have hside : p ≤ log'.length ∧
        (p = 0 ∨ (log'.get? (p-1)).map Entry.term = some pt) := by
      constructor
      · rw [hlog', List.length_append, htp]; omega
      · rcases Nat.eq_zero_or_pos p with rfl | hpos
        · exact Or.inl rfl
        · have hprev' : (log.get? (p-1)).map Entry.term = some pt := by
            rcases hprev with h0 | hx
            · omega
            · exact hx
          refine Or.inr ?_
          have h1 : log'.get? (p-1) = (log.take p).get? (p-1) := by
            rw [hlog']
            exact List.get?_append (by rw [htp]; omega)
          rw [h1, List.get?_take (by omega)]
          exact hprev'
    rw [if_pos hside, htake, ← hlog']
  · rw [if_neg hc] at h
    exact absurd h (by simp)

/-- Witness for C6: the empty-log follower accepts a one-entry batch at
`prev_log_index = 0`, and re-applying the same batch is a no-op. -/
theorem append_entries_idempotent_witness :
    handleAppendEntries [] 0 0 [Entry.mk 1 Payload.noop] =
      some [Entry.mk 1 Payload.noop] ∧
    handleAppendEntries [Entry.mk 1 Payload.noop] 0 0 [Entry.mk 1 Payload.noop] =
      some [Entry.mk 1 Payload.noop] :=
  ⟨by decide,
   append_entries_idempotent [] 0 0 [Entry.mk 1 Payload.noop]
     [Entry.mk 1 Payload.noop] (by decide)⟩

/-- C8: across every protocol step (RPC receipt, election, step-down,
restart), a node's `current_term` never decreases. -/
theorem term_monotone {N : Nat} {w w' : World N} (hs : Step w w') (n : Fin N) :
    (w.nodes n).currentTerm ≤ (w'.nodes n).currentTerm := by
  cases hs <;>
    simp only [Function.update_apply] <;>
    split <;> simp_all <;> omega

/-- A timeout step of the 1-node cluster. -/
lemma step_timeout : Step (initWorld 1) wTimeout :=
  Step.timeout 0 (initWorld 1) (by decide)

/-- Node 0 wins the election with the universal quorum. -/
lemma step_becomeLeader : Step wTimeout wLeader :=
  Step.becomeLeader 0 Finset.univ wTimeout (by decide) (by decide) (by decide)

/-- The leader proposes a no-op. -/
lemma step_propose : Step wLeader wLog :=
  Step.clientPropose 0 Payload.noop wLeader (by decide)

lemma reach_wTimeout : Reachable wTimeout :=
  Reachable.step Reachable.init step_timeout

lemma reach_wLeader : Reachable wLeader :=
  Reachable.step reach_wTimeout step_becomeLeader

lemma reach_wLog : Reachable wLog :=
  Reachable.step reach_wLeader step_propose

/-- Witness for C8 at the concrete timeout step of the 1-node cluster. -/
theorem term_monotone_witness :
    ((initWorld 1).nodes 0).currentTerm ≤ (wTimeout.nodes 0).currentTerm :=
  term_monotone step_timeout 0

end Raft

namespace ExportSet

lemma writeSlice_nil (buffer : List Nat) (offset : Nat) :
    writeSlice buffer offset [] = buffer := by
  simp [writeSlice, List.take_append_drop]

lemma writeSlice_length (buffer src : List Nat) (offset : Nat)
    (h : offset + src.length ≤ buffer.length) :
    (writeSlice buffer offset src).length = buffer.length := by
  simp [writeSlice]
  omega

lemma writeSlice_append (buffer s t : List Nat) (offset : Nat)
    (h : offset + s.length ≤ buffer.length) :
    writeSlice (writeSlice buffer offset s) (offset + s.length) t =
      writeSlice buffer offset (s ++ t) := by
  have hmin : (buffer.take offset).length = offset := by
    simp; omega
  have hB : writeSlice buffer offset s =
      (buffer.take offset ++ s) ++ buffer.drop (offset + s.length) := by
    simp [writeSlice]
  have hlen : (buffer.take offset ++ s).length = offset + s.length := by
    simp [hmin]
  have ha : (writeSlice buffer offset s).take (offset + s.length) =
      buffer.take offset ++ s := by
    rw [hB, List.take_append_of_le_length (le_of_eq hlen.symm)]
    exact List.take_of_length_le (le_of_eq hlen)
  have hb : (writeSlice buffer offset s).drop (offset + s.length + t.length) =
      buffer.drop (offset + s.length + t.length) := by
    rw [hB]
    rw [show offset + s.length + t.length =
      (buffer.take offset ++ s).length + t.length by rw [hlen]]
    rw [List.drop_append, List.drop_drop]
    congr 1
    omega
  show (writeSlice buffer offset s).take (offset + s.length) ++ t ++
      (writeSlice buffer offset s).drop (offset + s.length + t.length) = _
  rw [ha, hb]
  simp [writeSlice, List.append_assoc, Nat.add_assoc]

lemma segs_zero (bits : Nat) (onv offv sep : List Nat) (i : Nat) :
    segs bits onv offv sep i 0 = [] := rfl

lemma segs_succ (bits : Nat) (onv offv sep : List Nat) (i k : Nat) :
    segs bits onv offv sep i (k+1) =
      ((if i = 0 then [] else sep) ++ bitPiece bits onv offv i) ++
        segs bits onv offv sep (i+1) k := rfl

lemma exportSetFrom_succ (bits : Nat) (onv offv sep : List Nat)
    (i k offset : Nat) (buffer : List Nat) :
    exportSetFrom bits onv offv sep i (k+1) offset buffer =
      exportSetFrom bits onv offv sep (i+1) k
        ((if i ≠ 0 then offset + sep.length else offset) +
          (bitPiece bits onv offv i).length)
        (writeSlice (if i ≠ 0 then writeSlice buffer offset sep else buffer)
          (if i ≠ 0 then offset + sep.length else offset)
          (bitPiece bits onv offv i)) := rfl

lemma exportSetFrom_spec (bits : Nat) (onv offv sep : List Nat) :
    ∀ (k i offset : Nat) (buffer : List Nat),
      offset + (segs bits onv offv sep i k).length ≤ buffer.length →
      exportSetFrom bits onv offv sep i k offset buffer =
        (offset + (segs bits onv offv sep i k).length,
          writeSlice buffer offset (segs bits onv offv sep i k)) := by
  intro k
  induction k with
  | zero =>
    intro i offset buffer h
    simp [exportSetFrom, segs_zero, writeSlice_nil]
  | succ k ih =>
    intro i offset buffer h
    rw [segs_succ] at h ⊢
    have hwB : offset +
        ((if i = 0 then [] else sep) ++ bitPiece bits onv offv i).length ≤
        buffer.length := by
      rw [List.length_append] at h
      omega
    have hcomb : exportSetFrom bits onv offv sep i (k+1) offset buffer =
        exportSetFrom bits onv offv sep (i+1) k
          (offset +
            ((if i = 0 then [] else sep) ++ bitPiece bits onv offv i).length)
          (writeSlice buffer offset
            ((if i = 0 then [] else sep) ++ bitPiece bits onv offv i)) := by
      rw [exportSetFrom_succ]
      by_cases hi : i = 0
      · subst hi
        simp
      · have hsep : offset + sep.length ≤ buffer.length := by
          rw [if_neg hi, List.length_append] at hwB
          omega
        rw [if_neg hi, if_pos hi, if_pos hi,
          writeSlice_append buffer sep (bitPiece bits onv offv i) offset hsep]
        congr 1
        · rw [List.length_append]
          omega
      -- leftover: nothing
    rw [hcomb]
    have hlenB : (writeSlice buffer offset
        ((if i = 0 then [] else sep) ++ bitPiece bits onv offv i)).length =
        buffer.length := writeSlice_length _ _ _ hwB
    have h2 := h
    rw [List.length_append] at h2
    have hbound : (offset +
        ((if i = 0 then [] else sep) ++ bitPiece bits onv offv i).length) +
        (segs bits onv offv sep (i+1) k).length ≤
        (writeSlice buffer offset
          ((if i = 0 then [] else sep) ++ bitPiece bits onv offv i)).length := by
      rw [hlenB]
      omega
    rw [ih (i+1) _ _ hbound]
    rw [writeSlice_append buffer _ _ offset hwB]
    have harith : (offset +
        ((if i = 0 then [] else sep) ++ bitPiece bits onv offv i).length) +
        (segs bits onv offv sep (i+1) k).length =
        offset + (((if i = 0 then [] else sep) ++ bitPiece bits onv offv i) ++
          segs bits onv offv sep (i+1) k).length := by
      simp only [List.length_append]
      omega
    rw [harith]

lemma bitPiece_eq_claimPiece (bits : Nat) (onv offv : List Nat) (i : Nat) :
    bitPiece bits onv offv i = claimPiece bits onv offv i := by
  unfold bitPiece claimPiece
  rw [Nat.and_one_is_mod, Nat.shiftRight_eq_div_pow]
  rcases Nat.mod_two_eq_zero_or_one (bits / 2^i) with h | h <;> simp [h]

lemma segs_eq_claimConcat (bits : Nat) (onv offv sep : List Nat) :
    ∀ k i, segs bits onv offv sep i k =
      ((List.range k).map fun j =>
        (if i + j = 0 then [] else sep) ++
          claimPiece bits onv offv (i + j)).flatten := by
  intro k
  induction k with
  | zero => intro i; simp [segs_zero]
  | succ k ih =>
    intro i
    rw [segs_succ, ih (i+1), List.range_succ_eq_map]
    simp only [List.map_cons, List.map_map, List.flatten_cons, Nat.add_zero,
      bitPiece_eq_claimPiece]
    have hadd : ∀ j : Nat, (i + 1) + j = i + (j + 1) := by omega
    simp only [Function.comp_def, hadd]

lemma segs_length_of_ne (bits : Nat) (onv offv sep : List Nat) :
    ∀ k i, i ≠ 0 →
      (segs bits onv offv sep i k).length =
        k * sep.length +
          ((List.range k).map fun j =>
            (claimPiece bits onv offv (i + j)).length).sum := by
  intro k
  induction k with
  | zero => intro i _; simp [segs_zero]
  | succ k ih =>
    intro i hi
    rw [segs_succ, List.length_append, List.length_append, if_neg hi,
      ih (i+1) (by omega), List.range_succ_eq_map]
    simp only [List.map_cons, List.map_map, List.sum_cons, Nat.add_zero,
      bitPiece_eq_claimPiece]
    have hadd : ∀ j : Nat, (i + 1) + j = i + (j + 1) := by omega
    simp only [Function.comp_def, hadd]
    ring

lemma segs_length_zero (bits : Nat) (onv offv sep : List Nat) (n : Nat) :
    (segs bits onv offv sep 0 n).length = claimLen bits onv offv sep n := by
  cases n with
  | zero => simp [segs_zero, claimLen]
  | succ k =>
    rw [segs_succ, List.length_append, segs_length_of_ne bits onv offv sep k 1
      (by omega)]
    unfold claimLen
    rw [List.range_succ_eq_map]
    simp only [List.map_cons, List.map_map, List.sum_cons,
      bitPiece_eq_claimPiece, Nat.succ_sub_one, Nat.succ_eq_add_one]
    rw [if_pos trivial]
    have hadd : ∀ j : Nat, 1 + j = j + 1 := by omega
    simp only [Function.comp_def, hadd, List.nil_append, List.length_nil]
    ring

/-- C4: for every `bits < 2^64`, byte strings `on`, `off`, `sep`, every
`n ≤ 64` and every large-enough output buffer, `export_set` writes exactly
the concatenation, for `i` from 0 to `n-1` with `sep` inserted before every
element except the first, of `on` when bit `i` of `bits` is 1 and `off`
when it is 0 (the rest of the buffer is untouched), and returns
`(n-1)*|sep|` (0 when `n = 0`) plus the sum over `i < n` of `|on|` or
`|off|` according to bit `i`. -/
theorem export_set_spec (bits : Nat) (onv offv sep : List Nat) (n : Nat)
    (buffer : List Nat) (hbits : bits < 2 ^ 64) (hn : n ≤ 64)
    (hbuf : claimLen bits onv offv sep n ≤ buffer.length) :
    export_set bits onv offv sep n buffer =
      (claimLen bits onv offv sep n,
        claimConcat bits onv offv sep n ++
          buffer.drop (claimLen bits onv offv sep n)) := by
  have hseg : segs bits onv offv sep 0 n = claimConcat bits onv offv sep n := by
    rw [segs_eq_claimConcat]
    unfold claimConcat
    simp
  have hlen := segs_length_zero bits onv offv sep n
  unfold export_set
  rw [exportSetFrom_spec bits onv offv sep n 0 0 buffer (by omega)]
  rw [show writeSlice buffer 0 (segs bits onv offv sep 0 n) =
    segs bits onv offv sep 0 n ++
      buffer.drop (segs bits onv offv sep 0 n).length by
      simp [writeSlice]]
  rw [hlen, hseg]
  simp

/-- Witness for C4: `bits = 5`, `on = [89]`, `off = [78]`, `sep = [44]`,
`n = 3`, over a 10-byte buffer. -/
theorem export_set_spec_witness :
    export_set 5 [89] [78] [44] 3 (List.replicate 10 0) =
      (claimLen 5 [89] [78] [44] 3,
        claimConcat 5 [89] [78] [44] 3 ++
          (List.replicate 10 0).drop (claimLen 5 [89] [78] [44] 3)) :=
  export_set_spec 5 [89] [78] [44] 3 (List.replicate 10 0) (by decide)
    (by decide) (by decide)

end ExportSet

namespace MetaStore

lemma smLookup_nil (k : List Nat) : smLookup [] k = none := rfl

lemma smLookup_setEntry_self (sm : StateMachine) (k v : List Nat) (ver : Nat) :
    smLookup (setEntry sm k v ver) k = some (SMEntry.mk k v ver) := by
  induction sm with
  | nil => simp [setEntry, smLookup, List.find?]
  | cons e rest ih =>
    by_cases h : e.key = k
    · simp [setEntry, h, smLookup, List.find?]
    · simp only [setEntry, if_neg h]
      simp only [smLookup, List.find?] at ih ⊢
      rw [show (e.key == k) = false by simpa using h]
      exact ih

lemma smLookup_setEntry_ne (sm : StateMachine) (k' k v : List Nat) (ver : Nat)
    (hne : k' ≠ k) :
    smLookup (setEntry sm k' v ver) k = smLookup sm k := by
  induction sm with
  | nil =>
    simp only [setEntry, smLookup, List.find?]
    rw [show (k' == k) = false by simpa using hne]
  | cons e rest ih =>
    by_cases h : e.key = k'
    · simp only [setEntry, if_pos h, smLookup, List.find?]
      rw [show (k' == k) = false by simpa using hne,
        show (e.key == k) = false by simp [h]; exact hne]
    · simp only [setEntry, if_neg h, smLookup, List.find?] at ih ⊢
      cases hek : e.key == k
      · exact ih
      · rfl

lemma currentVersion_of_get_none (sm : StateMachine) (k : List Nat)
    (h : get sm k = none) : currentVersion sm k = 0 := by
  unfold get at h
  unfold currentVersion
  cases hl : smLookup sm k
  · simp
  · rw [hl] at h
    simp at h

lemma get_applyOp_none (sm : StateMachine) (k : List Nat) (op : ClientOp)
    (hop : ¬ canWriteKey k op) (h : get sm k = none) :
    get (applyOp sm op) k = none := by
  cases op with
  | setOp k' v =>
    have hne : k' ≠ k := by simpa [canWriteKey] using hop
    have happ : applyOp sm (ClientOp.setOp k' v) =
        setEntry sm k' v (currentVersion sm k' + 1) := rfl
    rw [happ]
    unfold get at h ⊢
    rw [smLookup_setEntry_ne sm k' k v _ hne]
    exact h
  | casOp k' e v =>
    by_cases hv : currentVersion sm k' = e
    · have happ : applyOp sm (ClientOp.casOp k' e v) =
          if currentVersion sm k' = e then
            setEntry sm k' v (currentVersion sm k' + 1) else sm := by
        show (compare_and_swap sm k' e v).1 = _
        unfold compare_and_swap
        split
        · rfl
        · rfl
      rw [happ, if_pos hv]
      have hne : k' ≠ k := by
        intro hkk
        subst hkk
        have h0 : currentVersion sm k' = 0 := currentVersion_of_get_none sm k' h
        have he : e = 0 := by omega
        exact hop (by simp [canWriteKey, he])
      unfold get at h ⊢
      rw [smLookup_setEntry_ne sm k' k v _ hne]
      exact h
    · have happ : applyOp sm (ClientOp.casOp k' e v) =
          if currentVersion sm k' = e then
            setEntry sm k' v (currentVersion sm k' + 1) else sm := by
        show (compare_and_swap sm k' e v).1 = _
        unfold compare_and_swap
        split
        · rfl
        · rfl
      rw [happ, if_neg hv]
      exact h

lemma get_applyOps_none (k : List Nat) :
    ∀ (ops : List ClientOp) (sm : StateMachine),
      (∀ op ∈ ops, ¬ canWriteKey k op) → get sm k = none →
      get (applyOps sm ops) k = none := by
  intro ops
  induction ops with
  | nil => intro sm _ h; exact h
  | cons op rest ih =>
    intro sm hops h
    unfold applyOps
    rw [List.foldl_cons]
    exact ih (applyOp sm op) (fun o ho => hops o (List.mem_cons_of_mem op ho))
      (get_applyOp_none sm k op (hops op (List.mem_cons_self op rest)) h)

/-- C3: for every key that no operation of the committed history can write
(no `set` on it and no compare-and-swap on it with expected version 0 — the
only CAS that can create a never-written key, whose current version is 0),
`get(key)` returns `none`, distinguishing a missing key from a bound one. -/
theorem get_unwritten_none (ops : List ClientOp) (k : List Nat)
    (hops : ∀ op ∈ ops, ¬ canWriteKey k op) :
    get (applyOps initSM ops) k = none :=
  get_applyOps_none k ops initSM hops rfl

/-- Witness for C3: a history writing key `[1]` leaves key `[9]` unbound. -/
theorem get_unwritten_none_witness :
    get (applyOps initSM
      [ClientOp.setOp [1] [2], ClientOp.casOp [1] 1 [3],
        ClientOp.casOp [9] 5 [4]]) [9] = none :=
  get_unwritten_none
    [ClientOp.setOp [1] [2], ClientOp.casOp [1] 1 [3],
      ClientOp.casOp [9] 5 [4]] [9] (by decide)

/-- C5: `compare_and_swap` fails with `VersionConflict` exactly when the
key's current version differs from the expected version, leaves the state
machine unchanged on that failure, and when the key's current version is 1,
of two compare-and-swap requests on it with expected version 1 (applied in
either order, i.e. for arbitrary payloads in both positions) the first
succeeds with version 2 and the second returns `VersionConflict`. -/
theorem cas_spec (sm : StateMachine) (k : List Nat) (e : Nat) (v : List Nat) :
    ((compare_and_swap sm k e v).2 = CasResult.versionConflict ↔
      currentVersion sm k ≠ e) ∧
    (currentVersion sm k ≠ e → (compare_and_swap sm k e v).1 = sm) ∧
    (currentVersion sm k = 1 → ∀ v1 v2 : List Nat,
      (compare_and_swap sm k 1 v1).2 = CasResult.ok 2 ∧
      (compare_and_swap (compare_and_swap sm k 1 v1).1 k 1 v2).2 =
        CasResult.versionConflict) := by
  refine ⟨?_, ?_, ?_⟩
  · unfold compare_and_swap
    by_cases hv : currentVersion sm k = e
    · simp [hv]
    · simp [hv]
  · intro hv
    unfold compare_and_swap
    rw [if_neg hv]
  · intro hv v1 v2
    constructor
    · unfold compare_and_swap
      rw [if_pos hv]
      unfold set
      rw [hv]
    · unfold compare_and_swap set
      rw [if_pos hv]
      have h2 : currentVersion (setEntry sm k v1 (currentVersion sm k + 1)) k =
          2 := by
        unfold currentVersion at hv ⊢
        rw [smLookup_setEntry_self]
        simp
        omega
      simp only []
      rw [if_neg (by rw [h2]; omega)]

/-- Witness for C5 on a one-key state machine at version 1. -/
theorem cas_spec_witness :
    (compare_and_swap [SMEntry.mk [7] [8] 1] [7] 1 [50]).2 = CasResult.ok 2 ∧
    (compare_and_swap (compare_and_swap [SMEntry.mk [7] [8] 1] [7] 1 [50]).1
      [7] 1 [51]).2 = CasResult.versionConflict :=
  (cas_spec [SMEntry.mk [7] [8] 1] [7] 1 [50]).2.2 (by decide) [50] [51]

lemma decodeEntry_encode (e : SMEntry) (r : List Nat) :
    decodeEntry (encodeEntry e ++ r) = some (e, r) := by
  have hshape : encodeEntry e ++ r =
      e.key.length ::
        (e.key ++ (e.value.length :: (e.value ++ (e.version :: r)))) := by
    simp [encodeEntry]
  rw [hshape]
  unfold decodeEntry
  simp

lemma decodeEntries_encode :
    ∀ (l : List SMEntry) (r : List Nat),
      decodeEntries l.length ((l.map encodeEntry).flatten ++ r) = some (l, r) := by
  intro l
  induction l with
  | nil => intro r; rfl
  | cons e es ih =>
    intro r
    simp only [List.map_cons, List.flatten_cons, List.length_cons,
      List.append_assoc]
    unfold decodeEntries
    rw [decodeEntry_encode e ((es.map encodeEntry).flatten ++ r)]
    simp [ih r]

lemma deserialize_serialize (sm : StateMachine) :
    deserialize (serialize sm) = some sm := by
  unfold serialize deserialize
  have h := decodeEntries_encode sm []
  rw [List.append_nil] at h
  simp [h]

/-- C7: the snapshot round-trip — serializing a state machine into a
snapshot at `last_included_index` and installing that snapshot on a fresh
node reproduces exactly the source state machine at that index, so the
re-serialized image of the installed state machine is byte-for-byte the
snapshot's image. -/
theorem snapshot_roundtrip (sm : StateMachine) (idx term : Nat)
    (memb : List Nat) :
    installSnapshot (makeSnapshot sm idx term memb) freshNode =
      some (NodeImage.mk sm idx) ∧
    serialize (NodeImage.mk sm idx).sm = (makeSnapshot sm idx term memb).image := by
  constructor
  · unfold installSnapshot makeSnapshot
    simp [deserialize_serialize]
  · rfl

end MetaStore

namespace Raft

lemma quorum_intersect {N : Nat} {Q1 Q2 : Finset (Fin N)}
    (h1 : isQuorum N Q1) (h2 : isQuorum N Q2) :
    ∃ v, v ∈ Q1 ∧ v ∈ Q2 := by
  by_contra hno
  push_neg at hno
  have hd : Disjoint Q1 Q2 := Finset.disjoint_left.mpr fun a ha hb => hno a ha hb
  have hc : (Q1 ∪ Q2).card = Q1.card + Q2.card := Finset.card_union_of_disjoint hd
  have hle : (Q1 ∪ Q2).card ≤ N := by
    simpa using Finset.card_le_univ (Q1 ∪ Q2)
  unfold isQuorum at h1 h2
  omega

lemma Inv.elected_unique {N : Nat} {w : World N} (hI : Inv w) {T : Nat}
    {c c' : Fin N} (hc : (T, c) ∈ w.elected) (hc' : (T, c') ∈ w.elected) :
    c = c' := by
  obtain ⟨Q, hQ, hvq⟩ := hI.elected_quorum T c hc
  obtain ⟨Q', hQ', hvq'⟩ := hI.elected_quorum T c' hc'
  obtain ⟨v, hv1, hv2⟩ := quorum_intersect hQ hQ'
  exact hI.votes_unique T v c c' (hvq v hv1) (hvq' v hv2)

lemma Inv.leaders_eq {N : Nat} {w : World N} (hI : Inv w) {n m : Fin N}
    (hn : (w.nodes n).role = Role.leader) (hm : (w.nodes m).role = Role.leader)
    (ht : (w.nodes n).currentTerm = (w.nodes m).currentTerm) : n = m := by
  have h1 := hI.leader_elected n hn
  have h2 := hI.leader_elected m hm
  rw [← ht] at h2
  exact hI.elected_unique h1 h2

lemma inv_init (N : Nat) : Inv (initWorld N) := by
  refine ⟨?_, ?_, ?_, ?_, ?_, ?_, ?_, ?_, ?_, ?_⟩ <;>
    simp [initWorld, initNode]

lemma inv_restart {N : Nat} {w : World N} (hI : Inv w) (n : Fin N) :
    Inv (World.mk
      (Function.update w.nodes n
        (RNode.mk Role.follower (w.nodes n).currentTerm
          (w.nodes n).votedFor (w.nodes n).log))
      w.votes w.elected w.termLogs) := by
  refine ⟨?_, ?_, ?_, ?_, ?_, ?_, ?_, ?_, ?_, ?_⟩ <;> dsimp only
  · intro T v c hm
    simp only [Function.update_apply]
    split
    · exact hI.votes_le_term T n c (by next h => rw [h] at hm; exact hm)
    · exact hI.votes_le_term T v c hm
  · exact hI.votes_unique
  · intro v c hm
    simp only [Function.update_apply] at hm ⊢
    split at hm
    · next h =>
      subst h
      split
      · exact hI.votes_current v c hm
      · next hno => exact absurd rfl hno
    · next h =>
      rw [if_neg h]
      exact hI.votes_current v c hm
  · exact hI.elected_quorum
  · intro T c hm
    simp only [Function.update_apply]
    split
    · next h => subst h; exact hI.elected_le_term T c hm
    · exact hI.elected_le_term T c hm
  · intro T c hm
    simp only [Function.update_apply]
    split
    · rintro ⟨hrole, -⟩
      simp at hrole
    · exact hI.elected_not_candidate T c hm
  · intro m hm
    simp only [Function.update_apply] at hm ⊢
    split at hm
    · simp at hm
    · next h =>
      rw [if_neg h]
      exact hI.leader_elected m hm
  · exact hI.termLogs_elected
  · intro m hm
    simp only [Function.update_apply] at hm ⊢
    split at hm
    · simp at hm
    · next h =>
      rw [if_neg h]
      exact hI.leader_termLogs m hm
  · intro m i e hm
    simp only [Function.update_apply] at hm ⊢
    split at hm
    · next h =>
      subst h
      rw [if_pos rfl]
      exact hI.log_matches m i e hm
    · next h =>
      rw [if_neg h]
      exact hI.log_matches m i e hm

end Raft

namespace Raft

lemma inv_stepDown {N : Nat} {w : World N} (hI : Inv w) (n : Fin N) (t : Nat)
    (ht : (w.nodes n).currentTerm < t) :
    Inv (World.mk
      (Function.update w.nodes n
        (RNode.mk Role.follower t none (w.nodes n).log))
      w.votes w.elected w.termLogs) := by
  refine ⟨?_, ?_, ?_, ?_, ?_, ?_, ?_, ?_, ?_, ?_⟩ <;> dsimp only
  · intro T v c hm
    rcases eq_or_ne v n with rfl | hv
    · rw [Function.update_same]
      show T ≤ t
      have := hI.votes_le_term T v c hm
      omega
    · rw [Function.update_noteq hv]
      exact hI.votes_le_term T v c hm
  · exact hI.votes_unique
  · intro v c hm
    rcases eq_or_ne v n with rfl | hv
    · rw [Function.update_same] at hm ⊢
      have hm' : (t, v, c) ∈ w.votes := hm
      have := hI.votes_le_term t v c hm'
      omega
    · rw [Function.update_noteq hv] at hm ⊢
      exact hI.votes_current v c hm
  · exact hI.elected_quorum
  · intro T c hm
    rcases eq_or_ne c n with rfl | hc
    · rw [Function.update_same]
      show T ≤ t
      have := hI.elected_le_term T c hm
      omega
    · rw [Function.update_noteq hc]
      exact hI.elected_le_term T c hm
  · intro T c hm
    rcases eq_or_ne c n with rfl | hc
    · rw [Function.update_same]
      rintro ⟨hrole, -⟩
      exact absurd hrole (by simp)
    · rw [Function.update_noteq hc]
      exact hI.elected_not_candidate T c hm
  · intro m hm
    rcases eq_or_ne m n with rfl | hmn
    · rw [Function.update_same] at hm
      exact absurd hm (by simp)
    · rw [Function.update_noteq hmn] at hm ⊢
      exact hI.leader_elected m hm
  · exact hI.termLogs_elected
  · intro m hm
    rcases eq_or_ne m n with rfl | hmn
    · rw [Function.update_same] at hm
      exact absurd hm (by simp)
    · rw [Function.update_noteq hmn] at hm ⊢
      exact hI.leader_termLogs m hm
  · intro m i e hm
    rcases eq_or_ne m n with rfl | hmn
    · rw [Function.update_same] at hm ⊢
      exact hI.log_matches m i e hm
    · rw [Function.update_noteq hmn] at hm ⊢
      exact hI.log_matches m i e hm

end Raft

namespace Raft

lemma inv_timeout {N : Nat} {w : World N} (hI : Inv w) (n : Fin N)
    (hrole : (w.nodes n).role ≠ Role.leader) :
    Inv (World.mk
      (Function.update w.nodes n
        (RNode.mk Role.candidate ((w.nodes n).currentTerm + 1) (some n)
          (w.nodes n).log))
      (((w.nodes n).currentTerm + 1, n, n) :: w.votes)
      w.elected w.termLogs) := by
  refine ⟨?_, ?_, ?_, ?_, ?_, ?_, ?_, ?_, ?_, ?_⟩ <;> dsimp only
  · intro T v c hm
    rcases List.mem_cons.mp hm with heq | hold
    · simp only [Prod.mk.injEq] at heq
      obtain ⟨rfl, rfl, rfl⟩ := heq
      rw [Function.update_same]
    · rcases eq_or_ne v n with rfl | hv
      · rw [Function.update_same]
        show T ≤ (w.nodes v).currentTerm + 1
        have := hI.votes_le_term T v c hold
        omega
      · rw [Function.update_noteq hv]
        exact hI.votes_le_term T v c hold
  · intro T v c c' h1 h2
    rcases List.mem_cons.mp h1 with he1 | ho1 <;>
      rcases List.mem_cons.mp h2 with he2 | ho2
    · simp only [Prod.mk.injEq] at he1 he2
      obtain ⟨-, -, rfl⟩ := he1
      obtain ⟨-, -, rfl⟩ := he2
      rfl
    · simp only [Prod.mk.injEq] at he1
      obtain ⟨rfl, rfl, rfl⟩ := he1
      exact absurd (hI.votes_le_term _ _ _ ho2) (by omega)
    · simp only [Prod.mk.injEq] at he2
      obtain ⟨rfl, rfl, rfl⟩ := he2
      exact absurd (hI.votes_le_term _ _ _ ho1) (by omega)
    · exact hI.votes_unique T v c c' ho1 ho2
  · intro v c hm
    rcases eq_or_ne v n with rfl | hv
    · rw [Function.update_same] at hm ⊢
      have hm' : ((w.nodes v).currentTerm + 1, v, c) ∈
          (((w.nodes v).currentTerm + 1, v, v) :: w.votes) := hm
      rcases List.mem_cons.mp hm' with heq | hold
      · simp only [Prod.mk.injEq] at heq
        obtain ⟨-, -, rfl⟩ := heq
        rfl
      · exact absurd (hI.votes_le_term _ _ _ hold) (by omega)
    · rw [Function.update_noteq hv] at hm ⊢
      rcases List.mem_cons.mp hm with heq | hold
      · exfalso
        simp only [Prod.mk.injEq] at heq
        exact hv heq.2.1
      · exact hI.votes_current v c hold
  · intro T c hm
    obtain ⟨Q, hQ, hvq⟩ := hI.elected_quorum T c hm
    exact ⟨Q, hQ, fun v hv => List.mem_cons_of_mem _ (hvq v hv)⟩
  · intro T c hm
    rcases eq_or_ne c n with rfl | hc
    · rw [Function.update_same]
      show T ≤ (w.nodes c).currentTerm + 1
      have := hI.elected_le_term T c hm
      omega
    · rw [Function.update_noteq hc]
      exact hI.elected_le_term T c hm
  · intro T c hm
    rcases eq_or_ne c n with rfl | hc
    · rw [Function.update_same]
      rintro ⟨-, hT⟩
      have hT' : (w.nodes c).currentTerm + 1 = T := hT
      have := hI.elected_le_term T c hm
      omega
    · rw [Function.update_noteq hc]
      exact hI.elected_not_candidate T c hm
  · intro m hm
    rcases eq_or_ne m n with rfl | hmn
    · rw [Function.update_same] at hm
      exact absurd hm (by simp)
    · rw [Function.update_noteq hmn] at hm ⊢
      exact hI.leader_elected m hm
  · exact hI.termLogs_elected
  · intro m hm
    rcases eq_or_ne m n with rfl | hmn
    · rw [Function.update_same] at hm
      exact absurd hm (by simp)
    · rw [Function.update_noteq hmn] at hm ⊢
      exact hI.leader_termLogs m hm
  · intro m i e hm
    rcases eq_or_ne m n with rfl | hmn
    · rw [Function.update_same] at hm ⊢
      exact hI.log_matches m i e hm
    · rw [Function.update_noteq hmn] at hm ⊢
      exact hI.log_matches m i e hm

end Raft

namespace Raft

lemma inv_grantVote {N : Nat} {w : World N} (hI : Inv w) (v c : Fin N)
    (hc : (w.nodes c).role = Role.candidate)
    (hterm : (w.nodes v).currentTerm ≤ (w.nodes c).currentTerm)
    (hvote : (w.nodes v).currentTerm < (w.nodes c).currentTerm ∨
      (w.nodes v).votedFor = none ∨ (w.nodes v).votedFor = some c)
    (hlog : upToDate (w.nodes c).log (w.nodes v).log) :
    Inv (World.mk
      (Function.update w.nodes v
        (RNode.mk Role.follower (w.nodes c).currentTerm (some c)
          (w.nodes v).log))
      (((w.nodes c).currentTerm, v, c) :: w.votes)
      w.elected w.termLogs) := by
  refine ⟨?_, ?_, ?_, ?_, ?_, ?_, ?_, ?_, ?_, ?_⟩ <;> dsimp only
  · intro T v0 c0 hm
    rcases List.mem_cons.mp hm with heq | hold
    · simp only [Prod.mk.injEq] at heq
      obtain ⟨rfl, rfl, rfl⟩ := heq
      rw [Function.update_same]
    · rcases eq_or_ne v0 v with rfl | hv0
      · rw [Function.update_same]
        show T ≤ (w.nodes c).currentTerm
        have := hI.votes_le_term T v0 c0 hold
        omega
      · rw [Function.update_noteq hv0]
        exact hI.votes_le_term T v0 c0 hold
  · intro T v0 c0 c1 h1 h2
    rcases List.mem_cons.mp h1 with he1 | ho1 <;>
      rcases List.mem_cons.mp h2 with he2 | ho2
    · simp only [Prod.mk.injEq] at he1 he2
      obtain ⟨-, -, rfl⟩ := he1
      obtain ⟨-, -, rfl⟩ := he2
      rfl
    · simp only [Prod.mk.injEq] at he1
      obtain ⟨rfl, rfl, rfl⟩ := he1
      have hle := hI.votes_le_term _ _ _ ho2
      have heqt : (w.nodes v0).currentTerm = (w.nodes c0).currentTerm :=
        le_antisymm hterm hle
      rw [← heqt] at ho2
      have hcur := hI.votes_current v0 c1 ho2
      rcases hvote with hlt | hnone | hsome
      · exact absurd hlt (by omega)
      · rw [hnone] at hcur
        exact absurd hcur (by simp)
      · rw [hsome] at hcur
        exact Option.some.inj hcur
    · simp only [Prod.mk.injEq] at he2
      obtain ⟨rfl, rfl, rfl⟩ := he2
      have hle := hI.votes_le_term _ _ _ ho1
      have heqt : (w.nodes v0).currentTerm = (w.nodes c1).currentTerm :=
        le_antisymm hterm hle
      rw [← heqt] at ho1
      have hcur := hI.votes_current v0 c0 ho1
      rcases hvote with hlt | hnone | hsome
      · exact absurd hlt (by omega)
      · rw [hnone] at hcur
        exact absurd hcur (by simp)
      · rw [hsome] at hcur
        exact (Option.some.inj hcur).symm
    · exact hI.votes_unique T v0 c0 c1 ho1 ho2
  · intro v0 c0 hm
    rcases eq_or_ne v0 v with rfl | hv0
    · rw [Function.update_same] at hm ⊢
      rcases List.mem_cons.mp hm with heq | hold
      · simp only [Prod.mk.injEq] at heq
        obtain ⟨-, -, rfl⟩ := heq
        rfl
      · have hle := hI.votes_le_term _ _ _ hold
        have heqt : (w.nodes v0).currentTerm = (w.nodes c).currentTerm :=
          le_antisymm hterm hle
        rw [← heqt] at hold
        have hcur := hI.votes_current v0 c0 hold
        rcases hvote with hlt | hnone | hsome
        · exact absurd hlt (by omega)
        · rw [hnone] at hcur
          exact absurd hcur (by simp)
        · rw [hsome] at hcur
          exact hcur
    · rw [Function.update_noteq hv0] at hm ⊢
      rcases List.mem_cons.mp hm with heq | hold
      · exfalso
        simp only [Prod.mk.injEq] at heq
        exact hv0 heq.2.1
      · exact hI.votes_current v0 c0 hold
  · intro T c0 hm
    obtain ⟨Q, hQ, hvq⟩ := hI.elected_quorum T c0 hm
    exact ⟨Q, hQ, fun u hu => List.mem_cons_of_mem _ (hvq u hu)⟩
  · intro T c0 hm
    rcases eq_or_ne c0 v with rfl | hc0
    · rw [Function.update_same]
      show T ≤ (w.nodes c).currentTerm
      have := hI.elected_le_term T c0 hm
      omega
    · rw [Function.update_noteq hc0]
      exact hI.elected_le_term T c0 hm
  · intro T c0 hm
    rcases eq_or_ne c0 v with rfl | hc0
    · rw [Function.update_same]
      rintro ⟨hr, -⟩
      exact absurd hr (by simp)
    · rw [Function.update_noteq hc0]
      exact hI.elected_not_candidate T c0 hm
  · intro m hm
    rcases eq_or_ne m v with rfl | hmv
    · rw [Function.update_same] at hm
      exact absurd hm (by simp)
    · rw [Function.update_noteq hmv] at hm ⊢
      exact hI.leader_elected m hm
  · exact hI.termLogs_elected
  · intro m hm
    rcases eq_or_ne m v with rfl | hmv
    · rw [Function.update_same] at hm
      exact absurd hm (by simp)
    · rw [Function.update_noteq hmv] at hm ⊢
      exact hI.leader_termLogs m hm
  · intro m i e hm
    rcases eq_or_ne m v with rfl | hmv
    · rw [Function.update_same] at hm ⊢
      exact hI.log_matches m i e hm
    · rw [Function.update_noteq hmv] at hm ⊢
      exact hI.log_matches m i e hm

end Raft

namespace Raft

lemma get?_some_lt {α : Type} {l : List α} {n : Nat} {a : α}
    (h : l.get? n = some a) : n < l.length := by
  by_contra hge
  rw [List.get?_eq_none.mpr (by omega)] at h
  exact Option.noConfusion h

lemma take_length_le {α : Type} {l1 l2 : List α} {j : Nat}
    (h : l1.take j = l2.take j) (hj : j ≤ l1.length) : j ≤ l2.length := by
  have hlen := congrArg List.length h
  rw [List.length_take, List.length_take] at hlen
  rcases Nat.le_total j l2.length with h2 | h2
  · exact h2
  · rw [Nat.min_eq_left hj, Nat.min_eq_right h2] at hlen
    omega

lemma inv_becomeLeader {N : Nat} {w : World N} (hI : Inv w) (c : Fin N)
    (Q : Finset (Fin N))
    (hc : (w.nodes c).role = Role.candidate)
    (hq : isQuorum N Q)
    (hvotes : ∀ v ∈ Q, ((w.nodes c).currentTerm, v, c) ∈ w.votes) :
    Inv (World.mk
      (Function.update w.nodes c
        (RNode.mk Role.leader (w.nodes c).currentTerm (w.nodes c).votedFor
          (w.nodes c).log))
      w.votes (((w.nodes c).currentTerm, c) :: w.elected) w.termLogs) := by
  refine ⟨?_, ?_, ?_, ?_, ?_, ?_, ?_, ?_, ?_, ?_⟩ <;> dsimp only
  · intro T v0 c0 hm
    rcases eq_or_ne v0 c with rfl | hv0
    · rw [Function.update_same]
      exact hI.votes_le_term T v0 c0 hm
    · rw [Function.update_noteq hv0]
      exact hI.votes_le_term T v0 c0 hm
  · exact hI.votes_unique
  · intro v0 c0 hm
    rcases eq_or_ne v0 c with rfl | hv0
    · rw [Function.update_same] at hm ⊢
      exact hI.votes_current v0 c0 hm
    · rw [Function.update_noteq hv0] at hm ⊢
      exact hI.votes_current v0 c0 hm
  · intro T c0 hm
    rcases List.mem_cons.mp hm with heq | hold
    · simp only [Prod.mk.injEq] at heq
      obtain ⟨rfl, rfl⟩ := heq
      exact ⟨Q, hq, hvotes⟩
    · exact hI.elected_quorum T c0 hold
  · intro T c0 hm
    rcases List.mem_cons.mp hm with heq | hold
    · simp only [Prod.mk.injEq] at heq
      obtain ⟨rfl, rfl⟩ := heq
      rw [Function.update_same]
    · rcases eq_or_ne c0 c with rfl | hc0
      · rw [Function.update_same]
        exact hI.elected_le_term T c0 hold
      · rw [Function.update_noteq hc0]
        exact hI.elected_le_term T c0 hold
  · intro T c0 hm
    rcases eq_or_ne c0 c with rfl | hc0
    · rw [Function.update_same]
      rintro ⟨hr, -⟩
      exact absurd hr (by simp)
    · rw [Function.update_noteq hc0]
      rcases List.mem_cons.mp hm with heq | hold
      · exfalso
        simp only [Prod.mk.injEq] at heq
        exact hc0 heq.2
      · exact hI.elected_not_candidate T c0 hold
  · intro m hm
    rcases eq_or_ne m c with rfl | hmc
    · rw [Function.update_same]
      exact List.mem_cons_self _ _
    · rw [Function.update_noteq hmc] at hm ⊢
      exact List.mem_cons_of_mem _ (hI.leader_elected m hm)
  · intro T hne
    obtain ⟨c0, hc0⟩ := hI.termLogs_elected T hne
    exact ⟨c0, List.mem_cons_of_mem _ hc0⟩
  · intro m hm
    rcases eq_or_ne m c with rfl | hmc
    · rw [Function.update_same]
      show ∃ t, w.termLogs (w.nodes m).currentTerm ++ t = (w.nodes m).log
      by_cases hemp : w.termLogs (w.nodes m).currentTerm = []
      · exact ⟨(w.nodes m).log, by rw [hemp]; rfl⟩
      · exfalso
        obtain ⟨c0, hc0⟩ := hI.termLogs_elected _ hemp
        obtain ⟨Q0, hQ0, hv0⟩ := hI.elected_quorum _ _ hc0
        obtain ⟨u, hu1, hu2⟩ := quorum_intersect hq hQ0
        have hcc : m = c0 :=
          hI.votes_unique _ u m c0 (hvotes u hu1) (hv0 u hu2)
        rw [← hcc] at hc0
        exact hI.elected_not_candidate _ m hc0 ⟨hc, rfl⟩
    · rw [Function.update_noteq hmc] at hm ⊢
      exact hI.leader_termLogs m hm
  · intro m i e hm
    rcases eq_or_ne m c with rfl | hmc
    · rw [Function.update_same] at hm ⊢
      exact hI.log_matches m i e hm
    · rw [Function.update_noteq hmc] at hm ⊢
      exact hI.log_matches m i e hm

end Raft

namespace Raft

lemma inv_clientPropose {N : Nat} {w : World N} (hI : Inv w) (n : Fin N)
    (p : Payload) (hl : (w.nodes n).role = Role.leader) :
    Inv (World.mk
      (Function.update w.nodes n
        (RNode.mk Role.leader (w.nodes n).currentTerm (w.nodes n).votedFor
          ((w.nodes n).log ++ [Entry.mk (w.nodes n).currentTerm p])))
      w.votes w.elected
      (Function.update w.termLogs (w.nodes n).currentTerm
        ((w.nodes n).log ++ [Entry.mk (w.nodes n).currentTerm p]))) := by
  refine ⟨?_, ?_, ?_, ?_, ?_, ?_, ?_, ?_, ?_, ?_⟩ <;> dsimp only
  · intro T v0 c0 hm
    rcases eq_or_ne v0 n with rfl | hv0
    · rw [Function.update_same]
      exact hI.votes_le_term T v0 c0 hm
    · rw [Function.update_noteq hv0]
      exact hI.votes_le_term T v0 c0 hm
  · exact hI.votes_unique
  · intro v0 c0 hm
    rcases eq_or_ne v0 n with rfl | hv0
    · rw [Function.update_same] at hm ⊢
      exact hI.votes_current v0 c0 hm
    · rw [Function.update_noteq hv0] at hm ⊢
      exact hI.votes_current v0 c0 hm
  · exact hI.elected_quorum
  · intro T c0 hm
    rcases eq_or_ne c0 n with rfl | hc0
    · rw [Function.update_same]
      exact hI.elected_le_term T c0 hm
    · rw [Function.update_noteq hc0]
      exact hI.elected_le_term T c0 hm
  · intro T c0 hm
    rcases eq_or_ne c0 n with rfl | hc0
    · rw [Function.update_same]
      rintro ⟨hr, -⟩
      exact absurd hr (by simp)
    · rw [Function.update_noteq hc0]
      exact hI.elected_not_candidate T c0 hm
  · intro m hm
    rcases eq_or_ne m n with rfl | hmn
    · rw [Function.update_same]
      exact hI.leader_elected m hl
    · rw [Function.update_noteq hmn] at hm ⊢
      exact hI.leader_elected m hm
  · intro T hne
    rcases eq_or_ne T ((w.nodes n).currentTerm) with rfl | hT
    · exact ⟨n, hI.leader_elected n hl⟩
    · rw [Function.update_noteq hT] at hne
      exact hI.termLogs_elected T hne
  · intro m hm
    rcases eq_or_ne m n with rfl | hmn
    · rw [Function.update_same]
      show ∃ t, Function.update w.termLogs (w.nodes m).currentTerm
        ((w.nodes m).log ++ [Entry.mk (w.nodes m).currentTerm p])
        (w.nodes m).currentTerm ++ t =
        (w.nodes m).log ++ [Entry.mk (w.nodes m).currentTerm p]
      rw [Function.update_same]
      exact ⟨[], List.append_nil _⟩
    · rw [Function.update_noteq hmn] at hm ⊢
      rcases eq_or_ne ((w.nodes m).currentTerm) ((w.nodes n).currentTerm) with
        hT | hT
      · exact absurd (hI.leaders_eq hm hl hT) hmn
      · rw [Function.update_noteq hT]
        exact hI.leader_termLogs m hm
  · intro m i e0 hm
    rcases eq_or_ne m n with rfl | hmn
    · rw [Function.update_same] at hm ⊢
      rcases Nat.lt_trichotomy i (w.nodes m).log.length with hlt | heq | hgt
      · rw [List.get?_append hlt] at hm
        have hold := hI.log_matches m i e0 hm
        have htk : ((w.nodes m).log ++ [Entry.mk (w.nodes m).currentTerm p]).take
            (i+1) = (w.nodes m).log.take (i+1) :=
          List.take_append_of_le_length (by omega)
        rcases eq_or_ne e0.term ((w.nodes m).currentTerm) with hT0 | hT0
        · rw [hT0, Function.update_same]
        · rw [Function.update_noteq hT0, htk]
          exact hold
      · subst heq
        have hco := List.get?_concat_length (w.nodes m).log
          (Entry.mk (w.nodes m).currentTerm p)
        rw [hco] at hm
        have he0 : e0 = Entry.mk (w.nodes m).currentTerm p :=
          (Option.some.inj hm).symm
        subst he0
        rw [show (Entry.mk (w.nodes m).currentTerm p).term =
          (w.nodes m).currentTerm from rfl, Function.update_same]
      · exfalso
        have : ((w.nodes m).log ++ [Entry.mk (w.nodes m).currentTerm p]).get? i
            = none := List.get?_eq_none.mpr (by simp; omega)
        rw [this] at hm
        exact Option.noConfusion hm
    · rw [Function.update_noteq hmn] at hm ⊢
      have hold := hI.log_matches m i e0 hm
      rcases eq_or_ne e0.term ((w.nodes n).currentTerm) with hT0 | hT0
      · rw [hT0, Function.update_same]
        rw [hT0] at hold
        obtain ⟨s, hs⟩ := hI.leader_termLogs n hl
        have hle1 : i + 1 ≤ (w.nodes m).log.length :=
          get?_some_lt hm
        have hle2 : i + 1 ≤ (w.termLogs ((w.nodes n).currentTerm)).length :=
          take_length_le hold hle1
        rw [hold, ← hs, List.append_assoc,
          List.take_append_of_le_length hle2]
      · rw [Function.update_noteq hT0]
        exact hold

end Raft

namespace Raft

lemma inv_appendEntries {N : Nat} {w : World N} (hI : Inv w) (l f : Fin N)
    (p k : Nat) (newLog : List Entry)
    (hl : (w.nodes l).role = Role.leader)
    (hne : l ≠ f)
    (hterm : (w.nodes f).currentTerm ≤ (w.nodes l).currentTerm)
    (hp : p ≤ (w.nodes l).log.length)
    (hk : p + k ≤ (w.nodes l).log.length)
    (haccept : handleAppendEntries (w.nodes f).log p
      (entryTermAt (w.nodes l).log p)
      (((w.nodes l).log.drop p).take k) = some newLog) :
    Inv (World.mk
      (Function.update w.nodes f
        (RNode.mk Role.follower (w.nodes l).currentTerm
          (if (w.nodes f).currentTerm = (w.nodes l).currentTerm
           then (w.nodes f).votedFor else none)
          newLog))
      w.votes w.elected w.termLogs) := by
  have hcond : p ≤ (w.nodes f).log.length ∧
      (p = 0 ∨ ((w.nodes f).log.get? (p - 1)).map Entry.term =
        some (entryTermAt (w.nodes l).log p)) ∧
      newLog = (w.nodes f).log.take p ++ ((w.nodes l).log.drop p).take k := by
    unfold handleAppendEntries at haccept
    by_cases hcc : p ≤ (w.nodes f).log.length ∧
        (p = 0 ∨ ((w.nodes f).log.get? (p - 1)).map Entry.term =
          some (entryTermAt (w.nodes l).log p))
    · rw [if_pos hcc] at haccept
      exact ⟨hcc.1, hcc.2, (Option.some_inj.mp haccept).symm⟩
    · rw [if_neg hcc] at haccept
      exact absurd haccept (by simp)
  obtain ⟨hplen, hprev, hnewdef⟩ := hcond
  have htakeeq : (w.nodes f).log.take p = (w.nodes l).log.take p := by
    rcases Nat.eq_zero_or_pos p with rfl | hpos
    · simp
    · rcases hprev with h0 | hsome
      · exact absurd h0 (by omega)
      · obtain ⟨el, hel⟩ : ∃ el, (w.nodes l).log.get? (p-1) = some el := by
          cases hx : (w.nodes l).log.get? (p-1)
          · exfalso
            rw [List.get?_eq_none] at hx
            omega
          · exact ⟨_, rfl⟩
        have hpt : entryTermAt (w.nodes l).log p = el.term := by
          unfold entryTermAt
          rw [hel]
          rfl
        obtain ⟨ef, hef⟩ : ∃ ef, (w.nodes f).log.get? (p-1) = some ef := by
          cases hx : (w.nodes f).log.get? (p-1)
          · rw [hx] at hsome
            exact absurd hsome (by simp)
          · exact ⟨_, rfl⟩
        have hterm_eq : ef.term = el.term := by
          rw [hef, hpt] at hsome
          simpa using hsome
        have hA_f := hI.log_matches f (p-1) ef hef
        have hA_l := hI.log_matches l (p-1) el hel
        rw [hterm_eq] at hA_f
        have hp1 : p - 1 + 1 = p := by omega
        rw [hp1] at hA_f hA_l
        rw [hA_f, hA_l]
  have hNew : newLog = (w.nodes l).log.take (p + k) := by
    rw [hnewdef, htakeeq, ← List.take_add]
  refine ⟨?_, ?_, ?_, ?_, ?_, ?_, ?_, ?_, ?_, ?_⟩ <;> dsimp only
  · intro T v0 c0 hm
    rcases eq_or_ne v0 f with rfl | hv0
    · rw [Function.update_same]
      show T ≤ (w.nodes l).currentTerm
      have := hI.votes_le_term T v0 c0 hm
      omega
    · rw [Function.update_noteq hv0]
      exact hI.votes_le_term T v0 c0 hm
  · exact hI.votes_unique
  · intro v0 c0 hm
    rcases eq_or_ne v0 f with rfl | hv0
    · rw [Function.update_same] at hm ⊢
      have hm' : ((w.nodes l).currentTerm, v0, c0) ∈ w.votes := hm
      have hle := hI.votes_le_term _ _ _ hm'
      have heq : (w.nodes v0).currentTerm = (w.nodes l).currentTerm :=
        le_antisymm hterm hle
      show (if (w.nodes v0).currentTerm = (w.nodes l).currentTerm
        then (w.nodes v0).votedFor else none) = some c0
      rw [if_pos heq]
      exact hI.votes_current v0 c0 (by rw [heq]; exact hm')
    · rw [Function.update_noteq hv0] at hm ⊢
      exact hI.votes_current v0 c0 hm
  · exact hI.elected_quorum
  · intro T c0 hm
    rcases eq_or_ne c0 f with rfl | hc0
    · rw [Function.update_same]
      show T ≤ (w.nodes l).currentTerm
      have := hI.elected_le_term T c0 hm
      omega
    · rw [Function.update_noteq hc0]
      exact hI.elected_le_term T c0 hm
  · intro T c0 hm
    rcases eq_or_ne c0 f with rfl | hc0
    · rw [Function.update_same]
      rintro ⟨hr, -⟩
      exact absurd hr (by simp)
    · rw [Function.update_noteq hc0]
      exact hI.elected_not_candidate T c0 hm
  · intro m hm
    rcases eq_or_ne m f with rfl | hmf
    · rw [Function.update_same] at hm
      exact absurd hm (by simp)
    · rw [Function.update_noteq hmf] at hm ⊢
      exact hI.leader_elected m hm
  · exact hI.termLogs_elected
  · intro m hm
    rcases eq_or_ne m f with rfl | hmf
    · rw [Function.update_same] at hm
      exact absurd hm (by simp)
    · rw [Function.update_noteq hmf] at hm ⊢
      exact hI.leader_termLogs m hm
  · intro m i e0 hm
    rcases eq_or_ne m f with rfl | hmf
    · rw [Function.update_same] at hm ⊢
      have hm2 : newLog.get? i = some e0 := hm
      rw [hNew] at hm2
      have hlen_take : ((w.nodes l).log.take (p+k)).length = p + k :=
        List.length_take_of_le hk
      have hi0 := get?_some_lt hm2
      have hi : i < p + k := by omega
      rw [List.get?_take hi] at hm2
      show newLog.take (i+1) = (w.termLogs e0.term).take (i+1)
      rw [hNew, List.take_take, Nat.min_eq_left (by omega)]
      exact hI.log_matches l i e0 hm2
    · rw [Function.update_noteq hmf] at hm ⊢
      exact hI.log_matches m i e0 hm

end Raft

namespace Raft

lemma inv_step {N : Nat} {w w' : World N} (hI : Inv w) (hs : Step w w') :
    Inv w' := by
  cases hs with
  | timeout n w0 hrole => exact inv_timeout hI n hrole
  | grantVote v c w0 hc hterm hvote hlog =>
    exact inv_grantVote hI v c hc hterm hvote hlog
  | becomeLeader c Q w0 hc hq hvotes => exact inv_becomeLeader hI c Q hc hq hvotes
  | clientPropose n p w0 hl => exact inv_clientPropose hI n p hl
  | appendEntries l f p k newLog w0 hl hne hterm hp hk haccept =>
    exact inv_appendEntries hI l f p k newLog hl hne hterm hp hk haccept
  | stepDown n t w0 ht => exact inv_stepDown hI n t ht
  | restart n w0 => exact inv_restart hI n

lemma reachable_inv {N : Nat} {w : World N} (hr : Reachable w) : Inv w := by
  induction hr with
  | init => exact inv_init N
  | step hr hs ih => exact inv_step ih hs

/-- C1: Election Safety — in every reachable cluster state, for every term
`T`, at most one node is in the Leader state while its `current_term`
equals `T`. -/
theorem election_safety {N : Nat} (w : World N) (hw : Reachable w)
    (n m : Fin N) (T : Nat)
    (hn : (w.nodes n).role = Role.leader) (hm : (w.nodes m).role = Role.leader)
    (hTn : (w.nodes n).currentTerm = T) (hTm : (w.nodes m).currentTerm = T) :
    n = m := by
  have hI := reachable_inv hw
  exact hI.leaders_eq hn hm (by rw [hTn, hTm])

/-- Witness for C1: in the reachable 1-node state with an elected leader,
the two leaders of term 1 coincide. -/
theorem election_safety_witness :
    (wLeader.nodes 0).role = Role.leader ∧ (0 : Fin 1) = 0 :=
  ⟨rfl, election_safety wLeader reach_wLeader 0 0 1 rfl rfl rfl rfl⟩

/-- C2: Log Matching — in every reachable cluster state, if two logs
contain an entry with the same index and the same term, they are identical
at every index up to and including that index. -/
theorem log_matching {N : Nat} (w : World N) (hw : Reachable w)
    (n1 n2 : Fin N) (i : Nat) (e1 e2 : Entry)
    (h1 : (w.nodes n1).log.get? i = some e1)
    (h2 : (w.nodes n2).log.get? i = some e2)
    (ht : e1.term = e2.term) :
    (w.nodes n1).log.take (i+1) = (w.nodes n2).log.take (i+1) := by
  have hI := reachable_inv hw
  have hA1 := hI.log_matches n1 i e1 h1
  have hA2 := hI.log_matches n2 i e2 h2
  rw [hA1, hA2, ht]

/-- Witness for C2 at the reachable 1-node state with one committed-style
entry in the log. -/
theorem log_matching_witness :
    (wLog.nodes 0).log.get? 0 = some (Entry.mk 1 Payload.noop) ∧
    (wLog.nodes 0).log.take 1 = (wLog.nodes 0).log.take 1 :=
  ⟨rfl, log_matching wLog reach_wLog 0 0 0 (Entry.mk 1 Payload.noop)
    (Entry.mk 1 Payload.noop) rfl rfl rfl⟩

end Raft
